import Mathlib

/-!
# Verification of the hobbes `net.H` codec and RPC session layer

This file gives a shallow embedding in Lean 4 of the type-directed codec
(blocking reads and the resumable `prepare`/`accum` protocol), the session
handshake, the synchronous and asynchronous RPC channels, the `can_memcpy`
flag table, the map codec, and the primitive type-descriptor table of
`src/include/hobbes/net.H`, together with theorems settling the spec claims.

Sockets are modelled as byte streams: writes produce a list of emitted bytes,
blocking reads consume a prefix of an input list (failing with `none` when the
peer closes the stream early), and the resumable readers consume bytes from a
buffer of currently-available bytes, exactly as `recvDataPartial` hands over
`min(available, requested)` bytes per call.  Multi-byte integers are
little-endian, matching the host-endian x86 layout the protocol assumes.
-/

namespace HobbesNet

abbrev Byte := Nat

/-- Little-endian 4-byte encoding of a `uint32_t` value (host-endian wire ints). -/
def enc4 (n : Nat) : List Byte :=
  [n % 256, n / 256 % 256, n / 256 ^ 2 % 256, n / 256 ^ 3 % 256]

/-- Little-endian 8-byte encoding of a `size_t` value (lengths on the wire). -/
def enc8 (n : Nat) : List Byte :=
  [n % 256, n / 256 % 256, n / 256 ^ 2 % 256, n / 256 ^ 3 % 256,
   n / 256 ^ 4 % 256, n / 256 ^ 5 % 256, n / 256 ^ 6 % 256, n / 256 ^ 7 % 256]

/-- Little-endian decoding of a byte list. -/
def decLE : List Byte → Nat
  | [] => 0
  | b :: t => b + 256 * decLE t

/-!
## The codec universe for the resumable-read claims

`Shape` is the static shape a codec is selected by; it covers the shapes the
resumable-equivalence claim cites: primitive scalars (`io<T>` for a
`sizeof(T)`-byte primitive), `unit`, pairs (`io<std::pair<U,V>>`) and binary
tagged sums (`io<variant<Ctors...>>` with a 4-byte `uint32_t` tag choosing the
constructor).
-/

inductive Shape where
  | prim (k : Nat)
  | unitS
  | pairS (a b : Shape)
  | sumS (a b : Shape)
deriving DecidableEq, Repr

inductive Val where
  | prim (bs : List Byte)
  | unitV
  | pairV (a b : Val)
  | inl (v : Val)
  | inr (v : Val)
deriving DecidableEq, Repr

/-- A value fits a shape: a `k`-byte primitive carries `k` raw bytes, a pair
carries componentwise-fitting values, and a sum injects into one constructor. -/
inductive HasShape : Val → Shape → Prop where
  | prim {bs : List Byte} {k : Nat} : bs.length = k → HasShape (.prim bs) (.prim k)
  | unit : HasShape .unitV .unitS
  | pair {a b : Val} {sa sb : Shape} :
      HasShape a sa → HasShape b sb → HasShape (.pairV a b) (.pairS sa sb)
  | inl {v : Val} {sa sb : Shape} : HasShape v sa → HasShape (.inl v) (.sumS sa sb)
  | inr {v : Val} {sa sb : Shape} : HasShape v sb → HasShape (.inr v) (.sumS sa sb)

/-- `write`: the bytes a value puts on the wire.  Primitives are a raw
`sizeof(T)`-byte blit, `unit` writes nothing, pairs write first then second,
sums write the 4-byte tag then the active constructor's payload. -/
def encV : Val → List Byte
  | .prim bs => bs
  | .unitV => []
  | .pairV a b => encV a ++ encV b
  | .inl v => enc4 0 ++ encV v
  | .inr v => enc4 1 ++ encV v

/-- Blocking `read`: consume the value's bytes from the front of the input,
`none` when the peer closes the stream before the value is complete
(`recvData` throwing on a short read). -/
def readB : Shape → List Byte → Option (Val × List Byte)
  | .prim k, bs => if k ≤ bs.length then some (.prim (bs.take k), bs.drop k) else none
  | .unitS, bs => some (.unitV, bs)
  | .pairS a b, bs =>
      match readB a bs with
      | none => none
      | some (va, bs1) =>
        match readB b bs1 with
        | none => none
        | some (vb, bs2) => some (.pairV va vb, bs2)
  | .sumS a b, bs =>
      if 4 ≤ bs.length then
        if decLE (bs.take 4) = 0 then
          match readB a (bs.drop 4) with
          | none => none
          | some (va, bs1) => some (.inl va, bs1)
        else
          match readB b (bs.drop 4) with
          | none => none
          | some (vb, bs1) => some (.inr vb, bs1)
      else none

/-!
## The resumable reader

`RS` is the per-shape `async_read_state`:
* `primS got`: the byte counter of a primitive (the bytes received so far,
  which in the C++ live in the target value with `*o` counting them);
* `unitS`: the trivial state of `io<unit>`;
* `pairS readFirst fstState sndState`: the pair state;
* `sumTag got`: the variant state while `readTag` is true (tag bytes so far);
* `sumPay tag payloadState`: the variant state after the tag completed.
-/

inductive RS where
  | primS (got : List Byte)
  | unitS
  | pairS (readFirst : Bool) (ra rb : RS)
  | sumTag (got : List Byte)
  | sumPay (tag : Nat) (pr : RS)
deriving DecidableEq, Repr

/-- `prepare`: initialize the reader state (pairs prepare both halves up
front; variants start in the tag phase). -/
def prepare : Shape → RS
  | .prim _ => .primS []
  | .unitS => .unitS
  | .pairS a b => .pairS true (prepare a) (prepare b)
  | .sumS _ _ => .sumTag []

/-- `accum`: make partial progress from the currently-available bytes `buf`
(`recvDataPartial` hands over `min(available, requested)` bytes per call) and
report whether the value is now fully materialized.  Mirrors the C++:
a primitive advances its byte counter; `unit` is immediately done; a pair
drives the first state, flips `readFirst` on its completion and reports
`false` that call, then drives the second; a variant drives the 4-byte tag,
on its completion initializes the matching payload state and reports `false`,
then drives the active constructor's state. -/
def accum : Shape → RS → List Byte → RS × List Byte × Bool
  | .prim k, .primS got, buf =>
      let t := min buf.length (k - got.length)
      let got' := got ++ buf.take t
      if got'.length = k then (.primS got', buf.drop t, true)
      else (.primS got', buf.drop t, false)
  | .unitS, rs, buf => (rs, buf, true)
  | .pairS a _, .pairS true ra rb, buf =>
      let r := accum a ra buf
      (.pairS (!r.2.2) r.1 rb, r.2.1, false)
  | .pairS _ b, .pairS false ra rb, buf =>
      let r := accum b rb buf
      (.pairS false ra r.1, r.2.1, r.2.2)
  | .sumS a b, .sumTag got, buf =>
      let t := min buf.length (4 - got.length)
      let got' := got ++ buf.take t
      if got'.length = 4 then
        if decLE got' = 0 then (.sumPay (decLE got') (prepare a), buf.drop t, false)
        else (.sumPay (decLE got') (prepare b), buf.drop t, false)
      else (.sumTag got', buf.drop t, false)
  | .sumS a b, .sumPay tg pr, buf =>
      if tg = 0 then
        let r := accum a pr buf
        (.sumPay tg r.1, r.2.1, r.2.2)
      else
        let r := accum b pr buf
        (.sumPay tg r.1, r.2.1, r.2.2)
  | _, rs, buf => (rs, buf, false)

/-- The value materialized in a reader state (the bytes the C++ wrote into
the target value along the way). -/
def extract : Shape → RS → Val
  | .prim _, .primS got => .prim got
  | .unitS, _ => .unitV
  | .pairS a b, .pairS _ ra rb => .pairV (extract a ra) (extract b rb)
  | .sumS a b, .sumPay tg pr =>
      if tg = 0 then .inl (extract a pr) else .inr (extract b pr)
  | _, _ => .unitV

/-- Structural bound on the number of `accum` calls a shape may need beyond
one call per delivered byte. -/
def msize : Shape → Nat
  | .prim _ => 1
  | .unitS => 1
  | .pairS a b => msize a + msize b + 1
  | .sumS a b => msize a + msize b + 2

/-- The one-byte-at-a-time driver.  Each step delivers the next undelivered
byte (if any) into the socket buffer and calls `accum` once; it stops at the
first call that reports completion, returning the final reader state, the
unconsumed buffered bytes, the undelivered bytes and the unused fuel. -/
def drive (s : Shape) : RS → List Byte → List Byte → Nat → Option (RS × List Byte × List Byte × Nat)
  | _, _, _, 0 => none
  | rs, buf, und, f + 1 =>
      let r := accum s rs (buf ++ und.take 1)
      if r.2.2 then some (r.1, r.2.1, und.drop 1, f)
      else drive s r.1 r.2.1 (und.drop 1) f

/-!
## Async session (one stub, FIFO pipeline)

A session issuing calls through one `AsyncRPCFunc<R(Args...)>` stub: `ks` is
the stub's FIFO of continuations (one entry per scheduler registration, in
lockstep with the scheduler queue), `pr` the single reader state reused
across calls, `buf` the bytes available on the socket, and `log` the record
of continuation invocations `(continuation id, delivered value)` in order. -/
structure Sess where
  ks : List Nat
  pr : RS
  buf : List Byte
  log : List (Nat × Val)
deriving DecidableEq, Repr

/-- One `step()` call: while the scheduler queue is nonempty, run
`readAndFinish()` on the head reader — one `accum` call; on completion invoke
the head continuation with the materialized value, re-prepare the reader
state, pop, and loop; otherwise stop. -/
def stepLoopAux (Rs : Shape) : List Nat → RS → List Byte → List (Nat × Val) → Sess
  | [], pr, buf, log => ⟨[], pr, buf, log⟩
  | c :: ks, pr, buf, log =>
    let r := accum Rs pr buf
    if r.2.2 then stepLoopAux Rs ks (prepare Rs) r.2.1 (log ++ [(c, extract Rs r.1)])
    else ⟨c :: ks, r.1, r.2.1, log⟩

def stepLoop (Rs : Shape) (s : Sess) : Sess := stepLoopAux Rs s.ks s.pr s.buf s.log

/-- `n` calls to `step()` (the event loop reacting to readability). -/
def runSteps (Rs : Shape) : Nat → Sess → Sess
  | 0, s => s
  | n + 1, s => runSteps Rs n (stepLoop Rs s)

/-- The scheduler queue depth, as reported by `pendingRequests()`. -/
def pendingRequests (s : Sess) : Nat := s.ks.length

/-- `AsyncRPCFunc<R(Args...)>::operator()`: write the invoke frame
(`INVOKE` opcode `0x02`, `u32` id, arguments in order), push the continuation
onto the stub's FIFO and register with the scheduler.  Returns the new
session state and the bytes written. -/
def asyncCall (s : Sess) (exprid : Nat) (args : List Val) (c : Nat) : Sess × List Byte :=
  (⟨s.ks ++ [c], s.pr, s.buf, s.log⟩, 2 :: (enc4 exprid ++ (args.map encV).flatten))

/-- `AsyncRPCFunc<void(Args...)>::operator()`: write the same invoke frame;
the void specialization pushes no continuation and never calls
`sched->enqueue` (its constructor does not even retain the scheduler). -/
def asyncCallVoid (s : Sess) (exprid : Nat) (args : List Val) : Sess × List Byte :=
  (s, 2 :: (enc4 exprid ++ (args.map encV).flatten))

/-!
## Synchronous RPC (`RPCFunc`)

The stub holds only the socket handle and the expression id; `operator()`
mutates no member, so the stub state after a call — failed or not — is the
state before it. -/
structure RPCStub where
  exprid : Nat
deriving DecidableEq, Repr

/-- `RPCFunc<R(Args...)>::operator()`: write `INVOKE` (`0x02`), the `u32` id
and each argument in order, then block-read `R`.  Result: (stub after the
call, bytes written, outcome of the blocking read — `none` models the thrown
exception when the socket cannot deliver a complete reply). -/
def rpcInvoke (st : RPCStub) (args : List Val) (Rs : Shape) (input : List Byte) :
    RPCStub × List Byte × Option (Val × List Byte) :=
  (st, 2 :: (enc4 st.exprid ++ (args.map encV).flatten), readB Rs input)

/-- `RPCFunc<void(Args...)>::operator()`: same frame, no read at all. -/
def rpcInvokeVoid (st : RPCStub) (args : List Val) (input : List Byte) :
    RPCStub × List Byte × List Byte :=
  (st, 2 :: (enc4 st.exprid ++ (args.map encV).flatten), input)

/-!
## Session handshake (`initSession`)
-/

structure RPCDef where
  id : Nat
  expr : List Byte
  willPut : List Byte
  willGet : List Byte
deriving DecidableEq, Repr

/-- `sendString`: `size_t` length then the bytes, unterminated. -/
def sendStringB (s : List Byte) : List Byte := enc8 s.length ++ s

/-- `sendBytes`: identical framing. -/
def sendBytesB (x : List Byte) : List Byte := enc8 x.length ++ x

/-- The bytes one RPC declaration puts on the wire: `DEFEXPR` opcode `0x00`,
`u32` id, length-prefixed expression, length-prefixed `willPut` and
`willGet` type encodings. -/
def defFrame (d : RPCDef) : List Byte :=
  0 :: (enc4 d.id ++ sendStringB d.expr ++ sendBytesB d.willPut ++ sendBytesB d.willGet)

inductive SessResult where
  | ok
  | rejected (id : Nat) (expr msg : List Byte)
  | peerClosed
deriving DecidableEq, Repr

/-- `recvString`: read a `size_t` length then that many bytes; `none` when
the peer closes the stream first. -/
def recvStringB (input : List Byte) : Option (List Byte × List Byte) :=
  if 8 ≤ input.length then
    if decLE (input.take 8) ≤ (input.drop 8).length then
      some ((input.drop 8).take (decLE (input.take 8)), (input.drop 8).drop (decLE (input.take 8)))
    else none
  else none

/-- The declaration loop of `initSession`: for each declaration in order,
write its frame, read one result byte; `0` means FAIL — read a
length-prefixed error message and abort with the id, expression and message,
attempting no subsequent declarations; any nonzero byte is ACCEPT. -/
def initSessionLoop : List RPCDef → List Byte → List Byte × SessResult
  | [], _ => ([], .ok)
  | d :: ds, input =>
    match input with
    | [] => (defFrame d, .peerClosed)
    | b :: input1 =>
      if b = 0 then
        match recvStringB input1 with
        | some (msg, _) => (defFrame d, .rejected d.id d.expr msg)
        | none => (defFrame d, .peerClosed)
      else
        let r := initSessionLoop ds input1
        (defFrame d ++ r.1, r.2)

/-- `initSession`: write the version word `0x00010000`, then run the
declaration loop.  Returns the bytes written and the outcome. -/
def initSession (ds : List RPCDef) (input : List Byte) : List Byte × SessResult :=
  (enc4 65536 ++ (initSessionLoop ds input).1, (initSessionLoop ds input).2)

/-!
## The mem-copyable vector codec at `T = uint32_t`

`io<std::vector<T>>` for `io<T>::can_memcpy`, instantiated at the 4-byte
primitive `uint32_t`: `write` sends the `size_t` length then a single
`sizeof(T)*n`-byte blit of the elements; the resumable reader sets
`byteLen = sizeof(T)*length` after the length completes and counts raw bytes.
The blocking `read`, however, passes `n` — not `sizeof(T)*n` — to `recvData`
after `x->resize(n)`. -/

/-- Group a raw little-endian element buffer into 4-byte `uint32_t` values. -/
def chunks4 : List Byte → List Nat
  | a :: b :: c :: d :: t => (a + 256 * b + 256 ^ 2 * c + 256 ^ 3 * d) :: chunks4 t
  | _ => []

/-- `io<std::vector<uint32_t>>::write`. -/
def writeVec4 (x : List Nat) : List Byte := enc8 x.length ++ (x.map enc4).flatten

/-- `io<std::vector<uint32_t>>::read` into a freshly default-constructed
vector: read the `size_t` length `n`, `resize(n)` (value-initializing the
`4*n` element bytes to zero), then `recvData` exactly `n` bytes into the
element buffer — the literal byte count the source requests. -/
def readVec4 (input : List Byte) : Option (List Nat × List Byte) :=
  if 8 ≤ input.length then
    if decLE (input.take 8) ≤ (input.drop 8).length then
      some (chunks4 ((input.drop 8).take (decLE (input.take 8))
              ++ List.replicate (4 * decLE (input.take 8) - decLE (input.take 8)) 0),
            (input.drop 8).drop (decLE (input.take 8)))
    else none
  else none

/-- `async_read_state` of the mem-copyable vector reader: the length phase
flag, the length bytes so far, the raw element bytes read so far (which in
the C++ land in the resized element buffer with `bytesRead` counting them),
and `byteLen`. -/
structure VecRS where
  readLen : Bool
  lenGot : List Byte
  raw : List Byte
  byteLen : Nat
deriving DecidableEq, Repr

def vecPrepare : VecRS := ⟨true, [], [], 0⟩

/-- The resumable vector reader at `uint32_t`: after the length completes it
sets `byteLen = sizeof(T) * length` and then blits raw bytes until
`bytesRead == byteLen`; done iff the length phase is over and the counters
agree. -/
def vecAccum4 (o : VecRS) (buf : List Byte) : VecRS × List Byte × Bool :=
  if o.readLen then
    let t := min buf.length (8 - o.lenGot.length)
    let got := o.lenGot ++ buf.take t
    if got.length = 8 then
      (⟨false, got, [], 4 * decLE got⟩, buf.drop t, decide (0 = 4 * decLE got))
    else (⟨true, got, [], 0⟩, buf.drop t, false)
  else
    let t := min buf.length (o.byteLen - o.raw.length)
    let raw := o.raw ++ buf.take t
    (⟨false, o.lenGot, raw, o.byteLen⟩, buf.drop t, decide (raw.length = o.byteLen))

/-- Iterate the resumable vector reader to completion on a fully-available
buffer. -/
def vecRun4 : Nat → VecRS → List Byte → Option (List Nat × List Byte)
  | 0, _, _ => none
  | f + 1, o, buf =>
    let r := vecAccum4 o buf
    if r.2.2 then some (chunks4 r.1.raw, r.2.1)
    else vecRun4 f r.1 r.2.1

/-!
## The `can_memcpy` table

One constructor per `io<...>` specialization that declares the flag:
primitives (`PRIV_HNET_DEFINE_PRIMTYS`), enums, `unit`, opaque aliases
(`can_memcpy = io<RT>::can_memcpy`), pairs, tuples, reflective structs,
variants, named variants (`can_memcpy = io<VT>::can_memcpy` where `VT` is a
`variant<...>`, whose flag is `false`), vectors (both specializations),
maps, strings, and fixed arrays `T[N]` (both `FixedArrMemcpyReadWrite` and
`FixedArrIterReadWrite` declare `can_memcpy = false`). -/
inductive CShape where
  | primC
  | enumC
  | unitC
  | aliasC (u : CShape)
  | pairC (a b : CShape)
  | tupleC
  | recordC
  | sumC
  | namedSumC
  | vecC (t : CShape)
  | mapC
  | strC
  | fixedArrC (t : CShape) (n : Nat)
deriving DecidableEq, Repr

def can_memcpy : CShape → Bool
  | .primC => true
  | .enumC => true
  | .unitC => false
  | .aliasC u => can_memcpy u
  | .pairC _ _ => false
  | .tupleC => false
  | .recordC => false
  | .sumC => false
  | .namedSumC => false
  | .vecC _ => false
  | .mapC => false
  | .strC => false
  | .fixedArrC _ _ => false

/-!
## The map codec at `K = T = uint8_t`

`std::map<K,T>` is modelled as an association list ordered by key;
`mapAssign` is `(*x)[k] = t` (insert or overwrite), `mapInsert` is
`x->insert(...)` (insert only if the key is absent). -/

def mapAssign : List (Nat × Nat) → Nat → Nat → List (Nat × Nat)
  | [], k, v => [(k, v)]
  | (k0, v0) :: t, k, v =>
    if k < k0 then (k, v) :: (k0, v0) :: t
    else if k = k0 then (k, v) :: t
    else (k0, v0) :: mapAssign t k v

def mapInsert : List (Nat × Nat) → Nat → Nat → List (Nat × Nat)
  | [], k, v => [(k, v)]
  | (k0, v0) :: t, k, v =>
    if k < k0 then (k, v) :: (k0, v0) :: t
    else if k = k0 then (k0, v0) :: t
    else (k0, v0) :: mapInsert t k v

def lookupA : List (Nat × Nat) → Nat → Option Nat
  | [], _ => none
  | (k0, v0) :: t, k => if k = k0 then some v0 else lookupA t k

/-- `io<std::map<uint8_t,uint8_t>>::write`: the `size_t` entry count, then
each key and value in key order (one byte each). -/
def encMap (ps : List (Nat × Nat)) : List Byte :=
  enc8 ps.length ++ (ps.map (fun p => [p.1, p.2])).flatten

/-- The element loop of the blocking map `read`: decode `n` key/value pairs
from the stream, assigning each into the destination map — which is never
cleared first. -/
def readMapLoop : Nat → List Byte → List (Nat × Nat) → Option (List (Nat × Nat) × List Byte)
  | 0, input, x => some (x, input)
  | n + 1, input, x =>
    match input with
    | k :: v :: input1 => readMapLoop n input1 (mapAssign x k v)
    | _ => none

/-- `io<std::map<uint8_t,uint8_t>>::read`. -/
def readMapB (input : List Byte) (x : List (Nat × Nat)) :
    Option (List (Nat × Nat) × List Byte) :=
  if 8 ≤ input.length then readMapLoop (decLE (input.take 8)) (input.drop 8) x
  else none

/-- `async_read_state` of the map reader: the `{LenS, KS, TS}` phase machine
with the remaining count and the scratch key. -/
inductive MapRS where
  | lenS (got : List Byte)
  | kS (len : Nat) (got : List Byte)
  | tS (len : Nat) (k : Nat) (got : List Byte)
deriving DecidableEq, Repr

/-- The resumable map reader at byte-sized keys and values: drive the
current phase; when a value completes, `insert` the scratch pair (keeping
any existing entry for that key), decrement the count and loop back to the
key phase; done iff the length phase is over and the count is zero. -/
def mapAccum (o : MapRS) (buf : List Byte) (x : List (Nat × Nat)) :
    MapRS × List Byte × List (Nat × Nat) × Bool :=
  match o with
  | .lenS got =>
    let t := min buf.length (8 - got.length)
    let got1 := got ++ buf.take t
    if got1.length = 8 then
      (.kS (decLE got1) [], buf.drop t, x, decide (decLE got1 = 0))
    else (.lenS got1, buf.drop t, x, false)
  | .kS len got =>
    let t := min buf.length (1 - got.length)
    let got1 := got ++ buf.take t
    if got1.length = 1 then
      (.tS len (got1.headD 0) [], buf.drop t, x, decide (len = 0))
    else (.kS len got1, buf.drop t, x, decide (len = 0))
  | .tS len k got =>
    let t := min buf.length (1 - got.length)
    let got1 := got ++ buf.take t
    if got1.length = 1 then
      (.kS (len - 1) [], buf.drop t, mapInsert x k (got1.headD 0), decide (len - 1 = 0))
    else (.tS len k got1, buf.drop t, x, decide (len = 0))

/-- Iterate the resumable map reader to completion on a fully-available
buffer. -/
def mapRun : Nat → MapRS → List Byte → List (Nat × Nat) →
    Option (List (Nat × Nat) × List Byte)
  | 0, _, _, _ => none
  | f + 1, o, buf, x =>
    let r := mapAccum o buf x
    if r.2.2.2 then some (r.2.2.1, r.2.1)
    else mapRun f r.1 r.2.1 r.2.2.1

/-!
## Primitive type descriptors

The `PRIV_HNET_DEFINE_PRIMTYS` invocations (only the `Prim` variant of the
`ty::desc` tree is needed here). -/

inductive PrimTy where
  | boolT | uint8T | charT | int16T | uint16T | int32T | uint32T | int64T | uint64T
  | floatT | doubleT
deriving DecidableEq, Repr

inductive Desc where
  | prim (n : String)
deriving DecidableEq, Repr

/-- `io<T>::type()` for the primitive instances. -/
def ioType : PrimTy → Desc
  | .boolT => .prim "bool"
  | .uint8T => .prim "byte"
  | .charT => .prim "char"
  | .int16T => .prim "short"
  | .uint16T => .prim "short"
  | .int32T => .prim "int"
  | .uint32T => .prim "int"
  | .int64T => .prim "long"
  | .uint64T => .prim "long"
  | .floatT => .prim "float"
  | .doubleT => .prim "double"

lemma drive_succ (s : Shape) (rs : RS) (buf und : List Byte) (f : Nat) :
    drive s rs buf und (f + 1) =
      (let r := accum s rs (buf ++ und.take 1);
       if r.2.2 then some (r.1, r.2.1, und.drop 1, f)
       else drive s r.1 r.2.1 (und.drop 1) f) := rfl

lemma buf_und_shift (buf und : List Byte) :
    (buf ++ und.take 1) ++ und.drop 1 = buf ++ und := by
  rw [List.append_assoc, List.take_append_drop]

/-- Base case: a `k`-byte primitive whose counter already holds `got`,
with the remaining `tb` bytes arriving ahead of `rest`, completes within the
fuel bound with exactly `tb` consumed. -/
lemma drive_prim (k : Nat) : ∀ fuel got tb rest buf und,
    got.length + tb.length = k → buf ++ und = tb ++ rest → und.length + 1 ≤ fuel →
    ∃ buf' und' fl,
      drive (.prim k) (.primS got) buf und fuel = some (.primS (got ++ tb), buf', und', fl) ∧
      buf' ++ und' = rest ∧ und'.length + (fuel - (und.length + 1)) ≤ fl := by
  intro fuel
  induction fuel with
  | zero => intro _ _ _ _ und _ _ hf; omega
  | succ f ih =>
    intro got tb rest buf und hlen hsplit hf
    have hsplit1 : (buf ++ und.take 1) ++ und.drop 1 = tb ++ rest := by
      rw [buf_und_shift]; exact hsplit
    have hBlen : (buf ++ und.take 1).length = buf.length + (und.take 1).length :=
      List.length_append _ _
    have hd1 : (und.drop 1).length = und.length - 1 := List.length_drop 1 und
    rw [drive_succ]
    simp only [accum]
    have hk : k - got.length = tb.length := by omega
    rw [hk]
    by_cases hble : tb.length ≤ (buf ++ und.take 1).length
    · -- the buffer now holds all remaining bytes: complete this step
      have htmin : min (buf ++ und.take 1).length tb.length = tb.length := by omega
      rw [htmin]
      have htake : (buf ++ und.take 1).take tb.length = tb := by
        have h1 : ((buf ++ und.take 1) ++ und.drop 1).take tb.length
            = (buf ++ und.take 1).take tb.length :=
          List.take_append_of_le_length hble
        rw [hsplit1, List.take_left] at h1
        exact h1.symm
      have hdone : (got ++ (buf ++ und.take 1).take tb.length).length = k := by
        rw [htake, List.length_append]; omega
      rw [if_pos hdone, htake]
      refine ⟨(buf ++ und.take 1).drop tb.length, und.drop 1, f, rfl, ?_, by omega⟩
      have h2 : ((buf ++ und.take 1) ++ und.drop 1).drop tb.length
          = (buf ++ und.take 1).drop tb.length ++ und.drop 1 :=
        List.drop_append_of_le_length hble
      rw [hsplit1, List.drop_left] at h2
      exact h2.symm
    · -- short read: the buffer is drained entirely, recurse
      push_neg at hble
      have htmin : min (buf ++ und.take 1).length tb.length = (buf ++ und.take 1).length := by
        omega
      rw [htmin, List.take_length, List.drop_length]
      have hnotdone : ¬ (got ++ (buf ++ und.take 1)).length = k := by
        rw [List.length_append]; omega
      rw [if_neg hnotdone]
      have hund : und ≠ [] := by
        intro h
        subst h
        have := congrArg List.length hsplit1
        simp only [List.take_nil, List.drop_nil, List.append_nil, List.length_append] at this
        have ht0 : (List.take 1 ([] : List Byte)).length = 0 := rfl
        omega
      have hundpos : 1 ≤ und.length := List.length_pos.mpr hund
      have hpre : tb.take (buf ++ und.take 1).length = buf ++ und.take 1 := by
        have h1 : ((buf ++ und.take 1) ++ und.drop 1).take (buf ++ und.take 1).length
            = buf ++ und.take 1 := List.take_left _ _
        rw [hsplit1, List.take_append_of_le_length (by omega)] at h1
        exact h1
      have hgB : (got ++ (buf ++ und.take 1)).length
          = got.length + (buf ++ und.take 1).length := List.length_append _ _
      have hdrp : (tb.drop (buf ++ und.take 1).length).length
          = tb.length - (buf ++ und.take 1).length := List.length_drop _ _
      have hrec := ih (got ++ (buf ++ und.take 1)) (tb.drop (buf ++ und.take 1).length)
        rest [] (und.drop 1)
        (by omega)
        (by
          have h1 : ((buf ++ und.take 1) ++ und.drop 1).drop (buf ++ und.take 1).length
              = und.drop 1 := List.drop_left _ _
          rw [hsplit1, List.drop_append_of_le_length (by omega)] at h1
          rw [List.nil_append, ← h1])
        (by omega)
      obtain ⟨buf', und', fl, hdrive, hrest, hfl⟩ := hrec
      have heq : (got ++ (buf ++ und.take 1)) ++ tb.drop (buf ++ und.take 1).length
          = got ++ tb := by
        rw [List.append_assoc]
        congr 1
        conv_rhs => rw [← List.take_append_drop (buf ++ und.take 1).length tb]
        rw [hpre]
      rw [heq] at hdrive
      exact ⟨buf', und', fl, hdrive, hrest, by omega⟩

/-- Base case: `io<unit>` completes on the first `accum` call, consuming
nothing. -/
lemma drive_unit : ∀ fuel buf und, 1 ≤ fuel →
    drive .unitS .unitS buf und fuel
      = some (.unitS, buf ++ und.take 1, und.drop 1, fuel - 1) := by
  intro fuel buf und hf
  cases fuel with
  | zero => omega
  | succ f => rw [drive_succ]; simp [accum]

/-- Tag phase of a variant: filling the 4-byte tag mirrors a 4-byte primitive;
when the tag completes, `accum` initializes the matching payload state,
reports `false`, and the drive continues in the payload phase. -/
lemma drive_sum_tag (a b : Shape) : ∀ fuel got tb rest buf und,
    got.length + tb.length = 4 → buf ++ und = tb ++ rest → und.length + 1 ≤ fuel →
    ∃ buf' und' fl,
      drive (.sumS a b) (.sumTag got) buf und fuel
        = drive (.sumS a b)
            (.sumPay (decLE (got ++ tb)) (prepare (if decLE (got ++ tb) = 0 then a else b)))
            buf' und' fl ∧
      buf' ++ und' = rest ∧ und'.length + (fuel - (und.length + 1)) ≤ fl := by
  intro fuel
  induction fuel with
  | zero => intro _ _ _ _ und _ _ hf; omega
  | succ f ih =>
    intro got tb rest buf und hlen hsplit hf
    have hsplit1 : (buf ++ und.take 1) ++ und.drop 1 = tb ++ rest := by
      rw [buf_und_shift]; exact hsplit
    have hBlen : (buf ++ und.take 1).length = buf.length + (und.take 1).length :=
      List.length_append _ _
    have hd1 : (und.drop 1).length = und.length - 1 := List.length_drop 1 und
    rw [drive_succ]
    simp only [accum]
    have hk : 4 - got.length = tb.length := by omega
    rw [hk]
    by_cases hble : tb.length ≤ (buf ++ und.take 1).length
    · have htmin : min (buf ++ und.take 1).length tb.length = tb.length := by omega
      rw [htmin]
      have htake : (buf ++ und.take 1).take tb.length = tb := by
        have h1 : ((buf ++ und.take 1) ++ und.drop 1).take tb.length
            = (buf ++ und.take 1).take tb.length :=
          List.take_append_of_le_length hble
        rw [hsplit1, List.take_left] at h1
        exact h1.symm
      have hdone : (got ++ (buf ++ und.take 1).take tb.length).length = 4 := by
        rw [htake, List.length_append]; omega
      rw [if_pos hdone, htake]
      have h2 : ((buf ++ und.take 1) ++ und.drop 1).drop tb.length
          = (buf ++ und.take 1).drop tb.length ++ und.drop 1 :=
        List.drop_append_of_le_length hble
      rw [hsplit1, List.drop_left] at h2
      by_cases htg : decLE (got ++ tb) = 0
      · simp only [htg, if_pos rfl]
        exact ⟨(buf ++ und.take 1).drop tb.length, und.drop 1, f, by simp, h2.symm, by omega⟩
      · simp only [if_neg htg]
        exact ⟨(buf ++ und.take 1).drop tb.length, und.drop 1, f, by simp, h2.symm, by omega⟩
    · push_neg at hble
      have htmin : min (buf ++ und.take 1).length tb.length = (buf ++ und.take 1).length := by
        omega
      rw [htmin, List.take_length, List.drop_length]
      have hnotdone : ¬ (got ++ (buf ++ und.take 1)).length = 4 := by
        rw [List.length_append]; omega
      rw [if_neg hnotdone]
      have hund : und ≠ [] := by
        intro h
        subst h
        have := congrArg List.length hsplit1
        simp only [List.take_nil, List.drop_nil, List.append_nil, List.length_append] at this
        have ht0 : (List.take 1 ([] : List Byte)).length = 0 := rfl
        omega
      have hundpos : 1 ≤ und.length := List.length_pos.mpr hund
      have hpre : tb.take (buf ++ und.take 1).length = buf ++ und.take 1 := by
        have h1 : ((buf ++ und.take 1) ++ und.drop 1).take (buf ++ und.take 1).length
            = buf ++ und.take 1 := List.take_left _ _
        rw [hsplit1, List.take_append_of_le_length (by omega)] at h1
        exact h1
      have hgB : (got ++ (buf ++ und.take 1)).length
          = got.length + (buf ++ und.take 1).length := List.length_append _ _
      have hdrp : (tb.drop (buf ++ und.take 1).length).length
          = tb.length - (buf ++ und.take 1).length := List.length_drop _ _
      have hrec := ih (got ++ (buf ++ und.take 1)) (tb.drop (buf ++ und.take 1).length)
        rest [] (und.drop 1)
        (by omega)
        (by
          have h1 : ((buf ++ und.take 1) ++ und.drop 1).drop (buf ++ und.take 1).length
              = und.drop 1 := List.drop_left _ _
          rw [hsplit1, List.drop_append_of_le_length (by omega)] at h1
          rw [List.nil_append, ← h1])
        (by omega)
      obtain ⟨buf', und', fl, hdrive, hrest, hfl⟩ := hrec
      have heq : (got ++ (buf ++ und.take 1)) ++ tb.drop (buf ++ und.take 1).length
          = got ++ tb := by
        rw [List.append_assoc]
        congr 1
        conv_rhs => rw [← List.take_append_drop (buf ++ und.take 1).length tb]
        rw [hpre]
      rw [heq] at hdrive
      exact ⟨buf', und', fl, hdrive, hrest, by omega⟩

/-- Phase-1 simulation for pairs: while `readFirst` holds, the pair drive
performs exactly the first component's drive, then continues in phase 2 from
the point where the first component completed. -/
lemma drive_pair_fst (a b : Shape) : ∀ fuel ra rb buf und res,
    drive a ra buf und fuel = some res →
    drive (.pairS a b) (.pairS true ra rb) buf und fuel
      = drive (.pairS a b) (.pairS false res.1 rb) res.2.1 res.2.2.1 res.2.2.2 := by
  intro fuel
  induction fuel with
  | zero => intro _ _ _ _ _ h; exact absurd h (by simp [drive])
  | succ f ih =>
    intro ra rb buf und res h
    rw [drive_succ] at h ⊢
    rcases hacc : accum a ra (buf ++ und.take 1) with ⟨ra1, buf1, da⟩
    rw [hacc] at h
    have hpacc : accum (.pairS a b) (.pairS true ra rb) (buf ++ und.take 1)
        = (.pairS (!da) ra1 rb, buf1, false) := by
      simp only [accum, hacc]
    rw [hpacc]
    simp only [Bool.false_eq_true, if_false]
    cases da with
    | true =>
      simp only [if_true] at h
      have hres : res = (ra1, buf1, und.drop 1, f) := by
        injection h with h; exact h.symm
      subst hres
      rfl
    | false =>
      simp only [Bool.false_eq_true, if_false] at h
      exact ih ra1 rb buf1 (und.drop 1) res h

/-- Phase-2 simulation for pairs: with `readFirst` cleared, the pair drive is
the second component's drive with the state wrapped. -/
lemma drive_pair_snd (a b : Shape) : ∀ fuel ra rb buf und,
    drive (.pairS a b) (.pairS false ra rb) buf und fuel
      = (drive b rb buf und fuel).map
          (fun res => (.pairS false ra res.1, res.2.1, res.2.2.1, res.2.2.2)) := by
  intro fuel
  induction fuel with
  | zero => intro _ _ _ _; rfl
  | succ f ih =>
    intro ra rb buf und
    rw [drive_succ, drive_succ]
    rcases hacc : accum b rb (buf ++ und.take 1) with ⟨rb1, buf1, db⟩
    have hpacc : accum (.pairS a b) (.pairS false ra rb) (buf ++ und.take 1)
        = (.pairS false ra rb1, buf1, db) := by
      simp only [accum, hacc]
    rw [hpacc]
    cases db with
    | true => simp
    | false =>
      simp only [Bool.false_eq_true, if_false]
      exact ih ra rb1 buf1 (und.drop 1)

/-- Payload simulation for variants, tag 0: the sum drive is the first
constructor's drive with the state wrapped. -/
lemma drive_sum_pay_left (a b : Shape) : ∀ fuel pr buf und,
    drive (.sumS a b) (.sumPay 0 pr) buf und fuel
      = (drive a pr buf und fuel).map
          (fun res => (.sumPay 0 res.1, res.2.1, res.2.2.1, res.2.2.2)) := by
  intro fuel
  induction fuel with
  | zero => intro _ _ _; rfl
  | succ f ih =>
    intro pr buf und
    rw [drive_succ, drive_succ]
    rcases hacc : accum a pr (buf ++ und.take 1) with ⟨pr1, buf1, d⟩
    have hsacc : accum (.sumS a b) (.sumPay 0 pr) (buf ++ und.take 1)
        = (.sumPay 0 pr1, buf1, d) := by
      simp [accum, hacc]
    rw [hsacc]
    cases d with
    | true => simp
    | false =>
      simp only [Bool.false_eq_true, if_false]
      exact ih pr1 buf1 (und.drop 1)

/-- Payload simulation for variants, nonzero tag: the sum drive is the second
constructor's drive with the state wrapped. -/
lemma drive_sum_pay_right (a b : Shape) (tg : Nat) (htg : tg ≠ 0) : ∀ fuel pr buf und,
    drive (.sumS a b) (.sumPay tg pr) buf und fuel
      = (drive b pr buf und fuel).map
          (fun res => (.sumPay tg res.1, res.2.1, res.2.2.1, res.2.2.2)) := by
  intro fuel
  induction fuel with
  | zero => intro _ _ _; rfl
  | succ f ih =>
    intro pr buf und
    rw [drive_succ, drive_succ]
    rcases hacc : accum b pr (buf ++ und.take 1) with ⟨pr1, buf1, d⟩
    have hsacc : accum (.sumS a b) (.sumPay tg pr) (buf ++ und.take 1)
        = (.sumPay tg pr1, buf1, d) := by
      simp only [accum, hacc, if_neg htg]
    rw [hsacc]
    cases d with
    | true => simp
    | false =>
      simp only [Bool.false_eq_true, if_false]
      exact ih pr1 buf1 (und.drop 1)

lemma enc4_length (n : Nat) : (enc4 n).length = 4 := rfl

lemma decLE_enc4_zero : decLE (enc4 0) = 0 := by decide

lemma decLE_enc4_one : decLE (enc4 1) = 1 := by decide

/-- Completeness of the resumable reader under one-byte-at-a-time delivery:
for every value `v` fitting shape `s`, if the socket will carry `encV v`
followed by `rest` (with `buf` already buffered and `und` still undelivered),
then within `und.length + msize s` `accum` calls the drive reports completion
for the first time, the materialized value is exactly `v`, and exactly
`encV v` has been consumed.  Since the drive stops at the first `true` and
ends with nothing of `encV v` unconsumed, every earlier call — in particular
every call made while only a strict prefix of `encV v` had been delivered —
returned `false`. -/
theorem drive_complete {v : Val} {s : Shape} (h : HasShape v s) :
    ∀ buf und rest fuel, buf ++ und = encV v ++ rest → und.length + msize s ≤ fuel →
    ∃ rs' buf' und' fl,
      drive s (prepare s) buf und fuel = some (rs', buf', und', fl) ∧
      extract s rs' = v ∧ buf' ++ und' = rest ∧
      und'.length + (fuel - (und.length + msize s)) ≤ fl := by
  induction h with
  | @prim bs k hbs =>
    intro buf und rest fuel hsplit hfuel
    obtain ⟨buf', und', fl, hd, hr, hfl⟩ :=
      drive_prim k fuel [] bs rest buf und (by simpa using hbs) hsplit
        (by simpa [msize] using hfuel)
    refine ⟨.primS ([] ++ bs), buf', und', fl, hd, by simp [extract], hr, ?_⟩
    simpa [msize] using hfl
  | unit =>
    intro buf und rest fuel hsplit hfuel
    have h1 : (1 : Nat) ≤ fuel := by simp [msize] at hfuel; omega
    refine ⟨.unitS, buf ++ und.take 1, und.drop 1, fuel - 1,
      drive_unit fuel buf und h1, rfl, ?_, ?_⟩
    · rw [buf_und_shift]
      simpa [encV] using hsplit
    · have hd1 : (und.drop 1).length = und.length - 1 := List.length_drop 1 und
      simp only [msize]
      omega
  | @pair a b sa sb h1 h2 ih1 ih2 =>
    intro buf und rest fuel hsplit hfuel
    have hsplit1 : buf ++ und = encV a ++ (encV b ++ rest) := by
      rw [hsplit, encV, List.append_assoc]
    obtain ⟨rs1, buf1, und1, fl1, hd1, hx1, hr1, hb1⟩ :=
      ih1 buf und (encV b ++ rest) fuel hsplit1 (by simp [msize] at hfuel ⊢; omega)
    obtain ⟨rs2, buf2, und2, fl2, hd2, hx2, hr2, hb2⟩ :=
      ih2 buf1 und1 rest fl1 hr1 (by simp [msize] at hfuel; omega)
    have hstep1 := drive_pair_fst sa sb fuel (prepare sa) (prepare sb) buf und
      (rs1, buf1, und1, fl1) hd1
    have hstep2 := drive_pair_snd sa sb fl1 rs1 (prepare sb) buf1 und1
    refine ⟨.pairS false rs1 rs2, buf2, und2, fl2, ?_, ?_, hr2, ?_⟩
    · show drive (.pairS sa sb) (prepare (.pairS sa sb)) buf und fuel = _
      rw [prepare, hstep1, hstep2, hd2]
      rfl
    · simp [extract, hx1, hx2]
    · simp only [msize] at hfuel ⊢
      omega
  | @inl a sa sb h1 ih1 =>
    intro buf und rest fuel hsplit hfuel
    have hsplit1 : buf ++ und = enc4 0 ++ (encV a ++ rest) := by
      rw [hsplit, encV, List.append_assoc]
    obtain ⟨buf1, und1, fl1, hd1, hr1, hb1⟩ :=
      drive_sum_tag sa sb fuel [] (enc4 0) (encV a ++ rest) buf und
        (by simp [enc4_length]) hsplit1 (by simp [msize] at hfuel; omega)
    simp only [List.nil_append, decLE_enc4_zero, if_true] at hd1
    obtain ⟨rs2, buf2, und2, fl2, hd2, hx2, hr2, hb2⟩ :=
      ih1 buf1 und1 rest fl1 hr1 (by simp [msize] at hfuel; omega)
    have hstep2 := drive_sum_pay_left sa sb fl1 (prepare sa) buf1 und1
    refine ⟨.sumPay 0 rs2, buf2, und2, fl2, ?_, ?_, hr2, ?_⟩
    · show drive (.sumS sa sb) (prepare (.sumS sa sb)) buf und fuel = _
      rw [prepare, hd1, hstep2, hd2]
      rfl
    · simp [extract, hx2]
    · simp only [msize] at hfuel ⊢
      omega
  | @inr a sa sb h1 ih1 =>
    intro buf und rest fuel hsplit hfuel
    have hsplit1 : buf ++ und = enc4 1 ++ (encV a ++ rest) := by
      rw [hsplit, encV, List.append_assoc]
    obtain ⟨buf1, und1, fl1, hd1, hr1, hb1⟩ :=
      drive_sum_tag sa sb fuel [] (enc4 1) (encV a ++ rest) buf und
        (by simp [enc4_length]) hsplit1 (by simp [msize] at hfuel; omega)
    simp only [List.nil_append, decLE_enc4_one, if_neg one_ne_zero] at hd1
    obtain ⟨rs2, buf2, und2, fl2, hd2, hx2, hr2, hb2⟩ :=
      ih1 buf1 und1 rest fl1 hr1 (by simp [msize] at hfuel; omega)
    have hstep2 := drive_sum_pay_right sa sb 1 one_ne_zero fl1 (prepare sb) buf1 und1
    refine ⟨.sumPay 1 rs2, buf2, und2, fl2, ?_, ?_, hr2, ?_⟩
    · show drive (.sumS sa sb) (prepare (.sumS sa sb)) buf und fuel = _
      rw [prepare, hd1, hstep2, hd2]
      rfl
    · simp [extract, hx2]
    · simp only [msize] at hfuel ⊢
      omega

/-- Blocking-read correctness: consuming the encoding of `v` from the front
of the stream yields `v` and leaves the rest untouched. -/
theorem readB_enc {v : Val} {s : Shape} (h : HasShape v s) :
    ∀ rest, readB s (encV v ++ rest) = some (v, rest) := by
  induction h with
  | @prim bs k hbs =>
    intro rest
    have hlen : (encV (.prim bs) ++ rest).length = k + rest.length := by
      simp [encV, hbs]
    rw [readB]
    rw [if_pos (by omega)]
    have htake : (List.take k (encV (Val.prim bs) ++ rest)) = bs := by
      simp only [encV]
      rw [List.take_append_of_le_length (by omega), List.take_of_length_le (by omega)]
    have hdrop : (List.drop k (encV (Val.prim bs) ++ rest)) = rest := by
      simp only [encV]
      rw [← hbs, List.drop_left]
    rw [htake, hdrop]
  | unit => intro rest; simp [readB, encV]
  | @pair a b sa sb h1 h2 ih1 ih2 =>
    intro rest
    rw [encV, List.append_assoc, readB, ih1]
    simp [ih2]
  | @inl a sa sb h1 ih1 =>
    intro rest
    rw [encV, List.append_assoc, readB]
    have hlen : (4 : Nat) ≤ (enc4 0 ++ (encV a ++ rest)).length := by
      simp [enc4_length]
    rw [if_pos hlen]
    have htake : (enc4 0 ++ (encV a ++ rest)).take 4 = enc4 0 := by
      rw [← enc4_length 0, List.take_left]
    have hdrop : (enc4 0 ++ (encV a ++ rest)).drop 4 = encV a ++ rest := by
      rw [← enc4_length 0, List.drop_left]
    rw [htake, hdrop, decLE_enc4_zero, if_pos rfl, ih1]
  | @inr a sa sb h1 ih1 =>
    intro rest
    rw [encV, List.append_assoc, readB]
    have hlen : (4 : Nat) ≤ (enc4 1 ++ (encV a ++ rest)).length := by
      simp [enc4_length]
    rw [if_pos hlen]
    have htake : (enc4 1 ++ (encV a ++ rest)).take 4 = enc4 1 := by
      rw [← enc4_length 1, List.take_left]
    have hdrop : (enc4 1 ++ (encV a ++ rest)).drop 4 = encV a ++ rest := by
      rw [← enc4_length 1, List.drop_left]
    rw [htake, hdrop, decLE_enc4_one, if_neg one_ne_zero, ih1]

/-- The drive never manufactures undelivered bytes: with nothing left to
deliver it finishes with nothing left to deliver. -/
lemma drive_nil_und (s : Shape) : ∀ fuel rs buf res,
    drive s rs buf [] fuel = some res → res.2.2.1 = [] := by
  intro fuel
  induction fuel with
  | zero => intro _ _ _ h; exact absurd h (by simp [drive])
  | succ f ih =>
    intro rs buf res h
    rw [drive_succ] at h
    rcases hacc : accum s rs (buf ++ List.take 1 []) with ⟨rs1, buf1, d⟩
    rw [hacc] at h
    cases d with
    | true =>
      simp only [if_true] at h
      injection h with h
      rw [← h]
      rfl
    | false =>
      simp only [Bool.false_eq_true, if_false] at h
      exact ih rs1 buf1 res h

lemma runSteps_add (Rs : Shape) : ∀ m n s,
    runSteps Rs (m + n) s = runSteps Rs m (runSteps Rs n s) := by
  intro m n
  induction n generalizing m with
  | zero => intro s; rfl
  | succ n ih =>
    intro s
    show runSteps Rs (m + n + 1) s = _
    rw [runSteps, runSteps, ih]

lemma stepLoop_fix (Rs : Shape) (pr : RS) (buf : List Byte) (log : List (Nat × Val)) :
    stepLoop Rs ⟨[], pr, buf, log⟩ = ⟨[], pr, buf, log⟩ := rfl

lemma runSteps_fix (Rs : Shape) : ∀ n pr buf log,
    runSteps Rs n ⟨[], pr, buf, log⟩ = ⟨[], pr, buf, log⟩ := by
  intro n
  induction n with
  | zero => intro _ _ _; rfl
  | succ n ih => intro pr buf log; rw [runSteps, stepLoop_fix, ih]

/-- Draining one pending call: if iterated `accum` from the current reader
state completes a value on the available bytes, then some number of `step()`
calls delivers exactly the head continuation and continues from the popped
session (the completing `step()` call keeps looping, which is one further
`runSteps` application of the popped state). -/
lemma session_drain_one (Rs : Shape) : ∀ fuel pr buf rs1 buf1 fl c ks log,
    drive Rs pr buf [] fuel = some (rs1, buf1, [], fl) →
    ∃ j, runSteps Rs j ⟨c :: ks, pr, buf, log⟩
          = runSteps Rs 1 ⟨ks, prepare Rs, buf1, log ++ [(c, extract Rs rs1)]⟩ := by
  intro fuel
  induction fuel with
  | zero => intro _ _ _ _ _ _ _ _ h; exact absurd h (by simp [drive])
  | succ f ih =>
    intro pr buf rs1 buf1 fl c ks log h
    rw [drive_succ] at h
    rcases hacc : accum Rs pr (buf ++ List.take 1 []) with ⟨rs2, buf2, d⟩
    rw [hacc] at h
    have haccbuf : accum Rs pr buf = (rs2, buf2, d) := by
      rw [← hacc]; simp
    cases d with
    | true =>
      simp only [if_true] at h
      injection h with h
      have h1 : rs2 = rs1 := congrArg (fun p => p.1) h
      have h2 : buf2 = buf1 := congrArg (fun p => p.2.1) h
      subst h1 h2
      refine ⟨1, ?_⟩
      show stepLoop Rs ⟨c :: ks, pr, buf, log⟩
          = stepLoop Rs ⟨ks, prepare Rs, buf2, log ++ [(c, extract Rs rs2)]⟩
      show stepLoopAux Rs (c :: ks) pr buf log
          = stepLoopAux Rs ks (prepare Rs) buf2 (log ++ [(c, extract Rs rs2)])
      rw [stepLoopAux]
      simp [haccbuf]
    | false =>
      simp only [Bool.false_eq_true, if_false] at h
      obtain ⟨j, hj⟩ := ih rs2 buf2 rs1 buf1 fl c ks log h
      refine ⟨j + 1, ?_⟩
      rw [runSteps_add, runSteps, runSteps]
      have hstep : stepLoop Rs ⟨c :: ks, pr, buf, log⟩ = ⟨c :: ks, rs2, buf2, log⟩ := by
        show stepLoopAux Rs (c :: ks) pr buf log = _
        rw [stepLoopAux]
        simp [haccbuf]
      rw [hstep, hj]

/-- FIFO draining: with the replies for `vs` available in issue order,
repeated `step()` calls invoke the queued continuations in exactly queue
order, consuming exactly the replies and leaving the session idle. -/
lemma session_drain (Rs : Shape) : ∀ (vs : List Val) (cs : List Nat) log rest,
    cs.length = vs.length → (∀ v ∈ vs, HasShape v Rs) →
    ∃ n, runSteps Rs n ⟨cs, prepare Rs, (vs.map encV).flatten ++ rest, log⟩
          = ⟨[], prepare Rs, rest, log ++ cs.zip vs⟩ := by
  intro vs
  induction vs with
  | nil =>
    intro cs log rest hlen _
    have hcs : cs = [] := List.length_eq_zero.mp hlen
    subst hcs
    exact ⟨0, by simp [runSteps]⟩
  | cons v vs ihv =>
    intro cs log rest hlen hsh
    cases cs with
    | nil => simp at hlen
    | cons c cs =>
      have hv : HasShape v Rs := hsh v (by simp)
      have hbuf : (((v :: vs).map encV).flatten ++ rest : List Byte)
          = encV v ++ ((vs.map encV).flatten ++ rest) := by
        simp
      obtain ⟨rs1, buf1, und1, fl, hdrive, hex, hrest1, _⟩ :=
        drive_complete hv (((v :: vs).map encV).flatten ++ rest) [] ((vs.map encV).flatten ++ rest)
          (msize Rs) (by rw [List.append_nil]; exact hbuf) (by simp)
      have hund1 : und1 = [] := drive_nil_und Rs (msize Rs) _ _ _ hdrive
      rw [hund1] at hdrive
      rw [hund1, List.append_nil] at hrest1
      obtain ⟨j, hj⟩ := session_drain_one Rs (msize Rs) (prepare Rs)
        (((v :: vs).map encV).flatten ++ rest) rs1 buf1 fl c cs log hdrive
      obtain ⟨m, hm⟩ := ihv cs (log ++ [(c, extract Rs rs1)]) rest
        (by simpa using hlen) (fun w hw => hsh w (by simp [hw]))
      rw [← hrest1] at hm
      refine ⟨m + j, ?_⟩
      rw [runSteps_add, hj]
      rw [← runSteps_add, Nat.add_comm m 1, runSteps_add, hm, runSteps_fix]
      rw [hex]
      simp

lemma decLE_enc8 (n : Nat) (h : n < 256 ^ 8) : decLE (enc8 n) = n := by
  simp only [enc8, decLE]
  omega

lemma enc8_length (n : Nat) : (enc8 n).length = 8 := rfl

/-- Declaration loop, all-accepted path: one nonzero reply byte per
declaration emits every frame in order and succeeds. -/
lemma initSessionLoop_accept : ∀ (ds : List RPCDef) (bs rest : List Byte),
    bs.length = ds.length → (∀ b ∈ bs, b ≠ 0) →
    initSessionLoop ds (bs ++ rest) = ((ds.map defFrame).flatten, .ok) := by
  intro ds
  induction ds with
  | nil =>
    intro bs rest hlen _
    have hbs : bs = [] := List.length_eq_zero.mp hlen
    subst hbs
    rfl
  | cons d ds ih =>
    intro bs rest hlen hnz
    cases bs with
    | nil => simp at hlen
    | cons b bs =>
      have hb : b ≠ 0 := hnz b (by simp)
      show initSessionLoop (d :: ds) (b :: (bs ++ rest)) = _
      rw [initSessionLoop]
      rw [if_neg hb]
      rw [ih bs rest (by simpa using hlen) (fun x hx => hnz x (by simp [hx]))]
      simp

/-- Declaration loop, rejection path: after the accepted prefix, a zero
reply byte followed by a length-prefixed message stops the loop with the
offending declaration's id, expression and the message; the frames written
are exactly those of the accepted prefix plus the rejected declaration —
none for any later declaration. -/
lemma initSessionLoop_reject : ∀ (pre : List RPCDef) (bs : List Byte),
    bs.length = pre.length → (∀ b ∈ bs, b ≠ 0) →
    ∀ (d : RPCDef) (post : List RPCDef) (msg rest : List Byte), msg.length < 256 ^ 8 →
    initSessionLoop (pre ++ d :: post) (bs ++ 0 :: (enc8 msg.length ++ (msg ++ rest)))
      = ((pre.map defFrame).flatten ++ defFrame d, .rejected d.id d.expr msg) := by
  intro pre
  induction pre with
  | nil =>
    intro bs hlen _ d post msg rest hmsg
    have hbs : bs = [] := List.length_eq_zero.mp hlen
    subst hbs
    show initSessionLoop (d :: post) (0 :: (enc8 msg.length ++ (msg ++ rest))) = _
    rw [initSessionLoop]
    rw [if_pos rfl]
    have hrecv : recvStringB (enc8 msg.length ++ (msg ++ rest)) = some (msg, rest) := by
      rw [recvStringB]
      have htk : (enc8 msg.length ++ (msg ++ rest)).take 8 = enc8 msg.length := by
        rw [← enc8_length msg.length, List.take_left]
      have hdp : (enc8 msg.length ++ (msg ++ rest)).drop 8 = msg ++ rest := by
        rw [← enc8_length msg.length, List.drop_left]
      rw [if_pos (by rw [List.length_append, enc8_length]; omega)]
      rw [htk, hdp, decLE_enc8 msg.length hmsg]
      rw [if_pos (by rw [List.length_append]; omega)]
      rw [List.take_left' rfl, List.drop_left' rfl]
    rw [hrecv]
    simp
  | cons p pre ih =>
    intro bs hlen hnz d post msg rest hmsg
    cases bs with
    | nil => simp at hlen
    | cons b bs =>
      have hb : b ≠ 0 := hnz b (by simp)
      show initSessionLoop (p :: (pre ++ d :: post)) (b :: (bs ++ 0 :: (enc8 msg.length ++ (msg ++ rest)))) = _
      rw [initSessionLoop]
      rw [if_neg hb]
      rw [ih bs (by simpa using hlen) (fun x hx => hnz x (by simp [hx])) d post msg rest hmsg]
      simp

/-!
## Map lookup lemmas
-/

/-- `(*x)[k] = v` overwrites: afterwards `k` maps to `v` and other keys are
untouched. -/
lemma lookupA_mapAssign : ∀ (x : List (Nat × Nat)) (k v k0 : Nat),
    lookupA (mapAssign x k v) k0 = if k0 = k then some v else lookupA x k0 := by
  intro x
  induction x with
  | nil =>
    intro k v k0
    show lookupA [(k, v)] k0 = _
    simp only [lookupA]
  | cons p t ih =>
    intro k v k0
    rcases p with ⟨k1, v1⟩
    rcases Nat.lt_trichotomy k k1 with h1 | h1 | h1
    · have hm : mapAssign ((k1, v1) :: t) k v = (k, v) :: (k1, v1) :: t := by
        rw [mapAssign, if_pos h1]
      rw [hm]
      simp only [lookupA]
    · have hm : mapAssign ((k1, v1) :: t) k v = (k, v) :: t := by
        rw [mapAssign, if_neg (by omega), if_pos h1]
      rw [hm]
      simp only [lookupA]
      split_ifs <;> first | rfl | omega
    · have hm : mapAssign ((k1, v1) :: t) k v = (k1, v1) :: mapAssign t k v := by
        rw [mapAssign, if_neg (by omega), if_neg (by omega)]
      rw [hm]
      simp only [lookupA, ih]
      split_ifs <;> first | rfl | omega

lemma lookupA_none : ∀ (t : List (Nat × Nat)) (k : Nat),
    (∀ q ∈ t, k ≠ q.1) → lookupA t k = none := by
  intro t
  induction t with
  | nil => intro _ _; rfl
  | cons p t ih =>
    intro k h
    rw [lookupA, if_neg (h p (by simp))]
    exact ih k (fun q hq => h q (by simp [hq]))

/-- `x->insert(...)` keeps an existing entry: in a key-ordered map, if `k`
is already bound to `v0`, inserting `(k, v)` leaves it bound to `v0`. -/
lemma lookupA_mapInsert_keep : ∀ (x : List (Nat × Nat)) (k v v0 : Nat),
    List.Pairwise (fun a b : Nat × Nat => a.1 < b.1) x →
    lookupA x k = some v0 → lookupA (mapInsert x k v) k = some v0 := by
  intro x
  induction x with
  | nil => intro k v v0 _ h; exact absurd h (by rw [lookupA]; simp)
  | cons p t ih =>
    intro k v v0 hsort h
    rcases p with ⟨k1, v1⟩
    rw [lookupA] at h
    rw [mapInsert]
    by_cases h1 : k < k1
    · rw [if_neg (by omega)] at h
      have hnone : lookupA t k = none := by
        apply lookupA_none
        intro q hq
        have := (List.pairwise_cons.mp hsort).1 q hq
        omega
      rw [hnone] at h
      exact absurd h (by simp)
    · rw [if_neg h1]
      by_cases h2 : k = k1
      · rw [if_pos h2, lookupA, if_pos h2]
        rw [if_pos h2] at h
        exact h
      · rw [if_neg h2, lookupA, if_neg h2]
        rw [if_neg h2] at h
        exact ih k v v0 (List.pairwise_cons.mp hsort).2 h

/-- `read` element loop on an explicit pair list: decoding `n` pairs folds
`mapAssign` over the destination, never clearing it. -/
lemma readMapLoop_enc : ∀ (ps : List (Nat × Nat)) (x : List (Nat × Nat)) (rest : List Byte),
    readMapLoop ps.length ((ps.map fun p => [p.1, p.2]).flatten ++ rest) x
      = some (ps.foldl (fun m p => mapAssign m p.1 p.2) x, rest) := by
  intro ps
  induction ps with
  | nil => intro x rest; rfl
  | cons p ps ih =>
    intro x rest
    show readMapLoop (ps.length + 1) (p.1 :: p.2 :: ((ps.map fun q => [q.1, q.2]).flatten ++ rest)) x = _
    rw [readMapLoop]
    exact ih (mapAssign x p.1 p.2) rest

/-- Keys untouched by the decoded entries keep their prior bindings. -/
lemma lookupA_foldl_assign : ∀ (ps : List (Nat × Nat)) (x : List (Nat × Nat)) (k : Nat),
    k ∉ ps.map Prod.fst →
    lookupA (ps.foldl (fun m p => mapAssign m p.1 p.2) x) k = lookupA x k := by
  intro ps
  induction ps with
  | nil => intro x k _; rfl
  | cons p ps ih =>
    intro x k hk
    have hk1 : k ≠ p.1 := by
      intro h
      exact hk (by simp [h])
    have hk2 : k ∉ ps.map Prod.fst := by
      intro h
      exact hk (by simp [h])
    show lookupA (ps.foldl (fun m q => mapAssign m q.1 q.2) (mapAssign x p.1 p.2)) k = _
    rw [ih (mapAssign x p.1 p.2) k hk2, lookupA_mapAssign, if_neg hk1]

/-!
## Claims
-/

/-- Claim C1: the spec says the blocking read of a mem-copyable dynamic
sequence reads the `size_t` length, resizes, then reads `length*sizeof(T)`
bytes in a single blit, giving `decode(encode(x)) = x`.  The code's `write`
and resumable reader do use `sizeof(T)*n` bytes, but the blocking `read`
passes only `n` to `recvData`.  At `x = [0x12345678] : vector<uint32_t>`,
`write` emits the 8-byte length `1` followed by 4 element bytes, while the
blocking read consumes only 1 element byte: it returns `[0x78]` with 3 bytes
left unread — the round-trip fails — whereas the resumable reader on the
same bytes returns `[0x12345678]` exactly. -/
theorem c1_memcpy_vector_blocking_read_bug :
    writeVec4 [305419896] = [1, 0, 0, 0, 0, 0, 0, 0, 120, 86, 52, 18] ∧
    readVec4 (writeVec4 [305419896]) = some ([120], [86, 52, 18]) ∧
    readVec4 (writeVec4 [305419896]) ≠ some ([305419896], []) ∧
    vecRun4 5 vecPrepare (writeVec4 [305419896]) = some ([305419896], []) := by
  refine ⟨rfl, by decide, by decide, by decide⟩

/-- Claim C2, counterexample: the claim demands that `accum` "returns true
exactly on the accum call in which the last byte arrives".  For the pair
shape `(1-byte prim, unit)` the full encoding is the single byte `[42]`; the
`accum` call in which that last byte arrives completes the first component,
flips `readFirst`, and returns `false` (the `readTag`/`readFirst` branches
return `false` unconditionally); completion is only reported on the next
call, which consumes nothing. -/
theorem c2_counterexample :
    encV (Val.pairV (.prim [42]) .unitV) = [42] ∧
    readB (.pairS (.prim 1) .unitS) [42]
      = some (Val.pairV (.prim [42]) .unitV, []) ∧
    (accum (.pairS (.prim 1) .unitS) (prepare (.pairS (.prim 1) .unitS)) [42]).2.2 = false ∧
    drive (.pairS (.prim 1) .unitS) (prepare (.pairS (.prim 1) .unitS)) [] [42] 3
      = some (.pairS false (.primS [42]) .unitS, [], [], 1) := by
  refine ⟨rfl, by decide, by decide, by decide⟩

/-- Claim C2 (amended): feeding the encoding of a value one byte per `accum`
call, the resumable reader decodes the same value as the blocking read,
never reports completion before the last byte has arrived (the drive stops
at the first `true`, and ends having consumed exactly the encoding), and
reports completion within `msize s` calls beyond one per delivered byte —
but the call in which the last byte arrives may itself return `false`. -/
theorem c2_resumable_equals_blocking (v : Val) (s : Shape) (h : HasShape v s) (fuel : Nat)
    (hf : (encV v).length + msize s ≤ fuel) :
    readB s (encV v) = some (v, []) ∧
    ∃ rs1 fl, drive s (prepare s) [] (encV v) fuel = some (rs1, [], [], fl) ∧
      extract s rs1 = v := by
  constructor
  · have h1 := readB_enc h []
    rw [List.append_nil] at h1
    exact h1
  · obtain ⟨rs1, buf1, und1, fl, hd, hx, hr, _⟩ :=
      drive_complete h [] (encV v) [] fuel (by simp) hf
    obtain ⟨hb, hu⟩ := List.append_eq_nil.mp hr
    rw [hb, hu] at hd
    exact ⟨rs1, fl, hd, hx⟩

/-- Claim C2 witness: the nested pair/sum value `((5,6), inr 9)` at its
exact fuel bound. -/
theorem c2_witness :
    readB (.pairS (.prim 2) (.sumS .unitS (.prim 1)))
        (encV (Val.pairV (.prim [5, 6]) (.inr (.prim [9]))))
      = some (Val.pairV (.prim [5, 6]) (.inr (.prim [9])), []) ∧
    ∃ rs1 fl, drive (.pairS (.prim 2) (.sumS .unitS (.prim 1)))
        (prepare (.pairS (.prim 2) (.sumS .unitS (.prim 1)))) []
        (encV (Val.pairV (.prim [5, 6]) (.inr (.prim [9])))) 13
      = some (rs1, [], [], fl) ∧
      extract (.pairS (.prim 2) (.sumS .unitS (.prim 1))) rs1
        = Val.pairV (.prim [5, 6]) (.inr (.prim [9])) :=
  c2_resumable_equals_blocking (Val.pairV (.prim [5, 6]) (.inr (.prim [9])))
    (.pairS (.prim 2) (.sumS .unitS (.prim 1)))
    (by exact HasShape.pair (HasShape.prim rfl) (HasShape.inr (HasShape.prim rfl)))
    13 (by decide)

/-- Claim C3: the handshake writes the version word `0x00010000`, then per
declaration the `DEFEXPR` opcode, `u32` id, length-prefixed expression and
the two length-prefixed type encodings, then reads one result byte.  Any
nonzero byte accepts and the loop continues through every declaration; a
zero byte makes it read a length-prefixed error message and fail carrying
the declaration's id, expression and the message, writing the frames of the
accepted prefix and the rejected declaration only — no subsequent
declaration is attempted. -/
theorem c3_handshake :
    (∀ (ds : List RPCDef) (bs rest : List Byte),
      bs.length = ds.length → (∀ b ∈ bs, b ≠ 0) →
      initSession ds (bs ++ rest)
        = (enc4 65536 ++ (ds.map defFrame).flatten, .ok)) ∧
    (∀ (pre : List RPCDef) (d : RPCDef) (post : List RPCDef) (bs msg rest : List Byte),
      bs.length = pre.length → (∀ b ∈ bs, b ≠ 0) → msg.length < 256 ^ 8 →
      initSession (pre ++ d :: post) (bs ++ 0 :: (enc8 msg.length ++ (msg ++ rest)))
        = (enc4 65536 ++ ((pre.map defFrame).flatten ++ defFrame d),
           .rejected d.id d.expr msg)) := by
  constructor
  · intro ds bs rest h1 h2
    rw [initSession, initSessionLoop_accept ds bs rest h1 h2]
  · intro pre d post bs msg rest h1 h2 h3
    rw [initSession, initSessionLoop_reject pre bs h1 h2 d post msg rest h3]

/-- Claim C3 witness: two declarations accepted; and a prefix of one
accepted declaration followed by a rejection of id 2 with message
`[77, 78]`, with a third declaration never attempted. -/
theorem c3_witness :
    initSession [⟨1, [101], [7], [8]⟩, ⟨2, [102], [9], [10]⟩] ([1, 1] ++ [])
      = (enc4 65536
          ++ (([⟨1, [101], [7], [8]⟩, ⟨2, [102], [9], [10]⟩] : List RPCDef).map defFrame).flatten,
         .ok) ∧
    initSession ([⟨1, [101], [7], [8]⟩] ++ ⟨2, [102], [9], [10]⟩ :: [⟨3, [103], [11], [12]⟩])
        ([1] ++ 0 :: (enc8 (List.length [77, 78]) ++ ([77, 78] ++ [])))
      = (enc4 65536
          ++ ((([⟨1, [101], [7], [8]⟩] : List RPCDef).map defFrame).flatten
              ++ defFrame ⟨2, [102], [9], [10]⟩),
         .rejected 2 [102] [77, 78]) :=
  ⟨c3_handshake.1 _ _ _ rfl (by decide),
   c3_handshake.2 _ _ _ _ _ _ rfl (by decide) (by decide)⟩

/-- Claim C4: a synchronous call writes exactly the `INVOKE` opcode `0x02`,
the `u32` id, and the argument encodings in declared order, then reads the
result with its blocking codec and returns it; the `void` specialization
writes the same frame and performs no read at all. -/
theorem c4_sync_invoke (st : RPCStub) (args : List Val) (Rs : Shape) (v : Val)
    (rest : List Byte) (h : HasShape v Rs) :
    rpcInvoke st args Rs (encV v ++ rest)
      = (st, 2 :: (enc4 st.exprid ++ (args.map encV).flatten), some (v, rest)) ∧
    rpcInvokeVoid st args (encV v ++ rest)
      = (st, 2 :: (enc4 st.exprid ++ (args.map encV).flatten), encV v ++ rest) := by
  constructor
  · show (st, _, readB Rs (encV v ++ rest)) = _
    rw [readB_enc h rest]
  · rfl

/-- Claim C4 witness: `echo_i32(42)` on id 1 — the frame is
`[0x02, 1, 0, 0, 0, 0x2A, 0, 0, 0]` and the reply `[0x2A, 0, 0, 0]` decodes
back to 42. -/
theorem c4_witness :
    rpcInvoke ⟨1⟩ [Val.prim [42, 0, 0, 0]] (.prim 4) (encV (Val.prim [42, 0, 0, 0]) ++ [])
      = (⟨1⟩, 2 :: (enc4 1 ++ (([Val.prim [42, 0, 0, 0]] : List Val).map encV).flatten),
         some (Val.prim [42, 0, 0, 0], [])) ∧
    rpcInvokeVoid ⟨1⟩ [Val.prim [42, 0, 0, 0]] (encV (Val.prim [42, 0, 0, 0]) ++ [])
      = (⟨1⟩, 2 :: (enc4 1 ++ (([Val.prim [42, 0, 0, 0]] : List Val).map encV).flatten),
         encV (Val.prim [42, 0, 0, 0]) ++ []) :=
  c4_sync_invoke ⟨1⟩ _ _ _ [] (HasShape.prim rfl)

/-- Claim C5: with the peer's replies available in issue order, repeated
`step()` calls deliver the queued continuations in exactly issue order —
each `step()` runs `accum` once on the head reader, and on completion
invokes the head continuation with the materialized value, re-prepares the
reader, pops the scheduler head and loops, else stops.  The final log is
the issue-ordered pairing of continuations with reply values, the queue is
empty, and exactly the replies were consumed. -/
theorem c5_async_fifo_order (Rs : Shape) (vs : List Val) (cs : List Nat) (rest : List Byte)
    (hlen : cs.length = vs.length) (hsh : ∀ v ∈ vs, HasShape v Rs) :
    ∃ n, runSteps Rs n ⟨cs, prepare Rs, (vs.map encV).flatten ++ rest, []⟩
          = ⟨[], prepare Rs, rest, cs.zip vs⟩ := by
  have h := session_drain Rs vs cs [] rest hlen hsh
  simpa using h

/-- Claim C5 witness: two queued calls with distinct byte replies delivered
in order. -/
theorem c5_witness :
    ∃ n, runSteps (.prim 1) n
          ⟨[11, 12], prepare (.prim 1),
           (([Val.prim [42], Val.prim [43]] : List Val).map encV).flatten ++ [], []⟩
        = ⟨[], prepare (.prim 1), [], [11, 12].zip [Val.prim [42], Val.prim [43]]⟩ :=
  c5_async_fifo_order (.prim 1) [Val.prim [42], Val.prim [43]] [11, 12] [] rfl
    (by
      intro v hv
      have hv2 : v = Val.prim [42] ∨ v = Val.prim [43] := by simpa using hv
      rcases hv2 with h | h <;> (subst h; exact HasShape.prim rfl))

/-- Claim C6, counterexample: the claim says a fixed array `[T; N]` inherits
`can_memcpy` from `T`; but both fixed-array codec bases declare
`can_memcpy = false`, so `[prim; 3]` reports `false` while its element
reports `true`. -/
theorem c6_counterexample :
    can_memcpy (.fixedArrC .primC 3) = false ∧ can_memcpy CShape.primC = true :=
  ⟨rfl, rfl⟩

/-- Claim C6 (amended): `can_memcpy` is true for primitives and enums,
inherited through opaque aliases, and false for every composite — pairs,
tuples, records, sums (anonymous and named), dynamic sequences, maps,
strings — and for every fixed array, regardless of its element type. -/
theorem c6_can_memcpy_table :
    can_memcpy CShape.primC = true ∧ can_memcpy CShape.enumC = true ∧
    can_memcpy CShape.unitC = false ∧
    (∀ u, can_memcpy (.aliasC u) = can_memcpy u) ∧
    (∀ a b, can_memcpy (.pairC a b) = false) ∧
    can_memcpy CShape.tupleC = false ∧ can_memcpy CShape.recordC = false ∧
    can_memcpy CShape.sumC = false ∧ can_memcpy CShape.namedSumC = false ∧
    (∀ t, can_memcpy (.vecC t) = false) ∧
    can_memcpy CShape.mapC = false ∧ can_memcpy CShape.strC = false ∧
    (∀ t n, can_memcpy (.fixedArrC t n) = false) :=
  ⟨rfl, rfl, rfl, fun _ => rfl, fun _ _ => rfl, rfl, rfl, rfl, rfl, fun _ => rfl,
   rfl, rfl, fun _ _ => rfl⟩

/-- Claim C7, counterexample: the claim says any I/O failure terminates the
session and every subsequent call fails with `SessionBroken`.  The stub
carries no failure state at all: here the first call fails (the peer
delivers nothing), yet the very next call on the resulting stub succeeds
and returns the decoded reply. -/
theorem c7_counterexample :
    (rpcInvoke ⟨1⟩ [] (.prim 4) []).2.2 = none ∧
    (rpcInvoke ((rpcInvoke ⟨1⟩ [] (.prim 4) []).1) [] (.prim 4) [42, 0, 0, 0]).2.2
      = some (Val.prim [42, 0, 0, 0], []) := by
  refine ⟨by decide, by decide⟩

/-- Claim C7 (amended): an I/O failure during a synchronous call surfaces
to the caller as a thrown error, but `RPCFunc::operator()` mutates no stub
state — there is no broken-session flag — so a subsequent call on the same
stub simply retries the socket I/O and succeeds whenever the socket then
delivers a complete reply. -/
theorem c7_stateless_failure (st : RPCStub) (args1 args2 : List Val) (Rs1 Rs2 : Shape)
    (in1 : List Byte) (v : Val) (rest : List Byte) (h : HasShape v Rs2)
    (_hfail : (rpcInvoke st args1 Rs1 in1).2.2 = none) :
    (rpcInvoke st args1 Rs1 in1).1 = st ∧
    (rpcInvoke ((rpcInvoke st args1 Rs1 in1).1) args2 Rs2 (encV v ++ rest)).2.2
      = some (v, rest) := by
  refine ⟨rfl, ?_⟩
  show readB Rs2 (encV v ++ rest) = _
  exact readB_enc h rest

/-- Claim C7 witness: failing first call on empty input, succeeding second
call. -/
theorem c7_witness :
    (rpcInvoke ⟨2⟩ [] (.prim 4) []).1 = (⟨2⟩ : RPCStub) ∧
    (rpcInvoke ((rpcInvoke ⟨2⟩ [] (.prim 4) []).1) [] (.prim 4)
        (encV (Val.prim [7, 0, 0, 0]) ++ [])).2.2
      = some (Val.prim [7, 0, 0, 0], []) :=
  c7_stateless_failure ⟨2⟩ [] [] (.prim 4) (.prim 4) [] _ []
    (HasShape.prim rfl) (by decide)

/-- Claim C8: a fire-and-forget async call writes the invoke frame but
pushes no continuation and creates no scheduler entry: the session state is
untouched and `pendingRequests()` is unchanged, whereas the non-void call
on the same arguments enqueues one reader (and writes the same frame). -/
theorem c8_void_async_no_pending (s : Sess) (exprid : Nat) (args : List Val) (c : Nat) :
    asyncCallVoid s exprid args = (s, 2 :: (enc4 exprid ++ (args.map encV).flatten)) ∧
    pendingRequests (asyncCallVoid s exprid args).1 = pendingRequests s ∧
    pendingRequests (asyncCall s exprid args c).1 = pendingRequests s + 1 ∧
    (asyncCall s exprid args c).2 = (asyncCallVoid s exprid args).2 := by
  refine ⟨rfl, rfl, ?_, rfl⟩
  show (s.ks ++ [c]).length = s.ks.length + 1
  simp

/-- Claim C9: the blocking map read never clears its destination — it reads
the length and assigns each decoded pair into the existing map, overwriting
on key collision; keys not among the decoded ones keep their prior
bindings; the resumable map reader uses `insert`, which does not overwrite
an existing key; and decoding into a non-empty destination breaks the
round-trip (decoding an empty map into it returns it unchanged). -/
theorem c9_map_read_semantics :
    (∀ (ps x : List (Nat × Nat)) (rest : List Byte), ps.length < 256 ^ 8 →
       readMapB (encMap ps ++ rest) x
         = some (ps.foldl (fun m p => mapAssign m p.1 p.2) x, rest)) ∧
    (∀ (ps x : List (Nat × Nat)) (k : Nat), k ∉ ps.map Prod.fst →
       lookupA (ps.foldl (fun m p => mapAssign m p.1 p.2) x) k = lookupA x k) ∧
    (∀ (x : List (Nat × Nat)) (k v : Nat), lookupA (mapAssign x k v) k = some v) ∧
    (∀ (x : List (Nat × Nat)) (k v v0 : Nat),
       List.Pairwise (fun a b : Nat × Nat => a.1 < b.1) x →
       lookupA x k = some v0 → lookupA (mapInsert x k v) k = some v0) ∧
    readMapB (encMap [(5, 7)]) [(5, 9)] = some ([(5, 7)], []) ∧
    mapRun 6 (.lenS []) (encMap [(5, 7)]) [(5, 9)] = some ([(5, 9)], []) ∧
    (∀ x : List (Nat × Nat), x ≠ [] →
       readMapB (encMap []) x = some (x, []) ∧
       readMapB (encMap []) x ≠ some (([] : List (Nat × Nat)), [])) := by
  refine ⟨?_, lookupA_foldl_assign, ?_, lookupA_mapInsert_keep, by decide, by decide, ?_⟩
  · intro ps x rest hlen
    have hsplit : encMap ps ++ rest
        = enc8 ps.length ++ ((ps.map fun p => [p.1, p.2]).flatten ++ rest) := by
      rw [encMap, List.append_assoc]
    rw [hsplit, readMapB]
    have htk : (enc8 ps.length ++ ((ps.map fun p => [p.1, p.2]).flatten ++ rest)).take 8
        = enc8 ps.length := by
      rw [← enc8_length ps.length, List.take_left]
    have hdp : (enc8 ps.length ++ ((ps.map fun p => [p.1, p.2]).flatten ++ rest)).drop 8
        = (ps.map fun p => [p.1, p.2]).flatten ++ rest := by
      rw [← enc8_length ps.length, List.drop_left]
    rw [if_pos (by rw [List.length_append, enc8_length]; omega), htk, hdp,
       decLE_enc8 ps.length hlen, readMapLoop_enc]
  · intro x k v
    rw [lookupA_mapAssign, if_pos rfl]
  · intro x hx
    refine ⟨rfl, ?_⟩
    intro hcontra
    have : x = ([] : List (Nat × Nat)) := by
      have h1 : readMapB (encMap []) x = some (x, []) := rfl
      rw [h1] at hcontra
      injection hcontra with hc
      exact congrArg (fun p => p.1) hc
    exact hx this

/-- Claim C9 witness: two decoded entries assigned over an empty
destination, and an overwrite of an assigned key. -/
theorem c9_witness :
    readMapB (encMap [(2, 20), (5, 7)] ++ []) []
      = some (([(2, 20), (5, 7)] : List (Nat × Nat)).foldl
          (fun m p => mapAssign m p.1 p.2) [], []) ∧
    lookupA (mapAssign [] 5 7) 5 = some 7 :=
  ⟨c9_map_read_semantics.1 [(2, 20), (5, 7)] [] [] (by decide),
   c9_map_read_semantics.2.2.1 [] 5 7⟩

/-- Claim C10: the unsigned integer primitives share the descriptors of
their signed counterparts — `uint16_t` is `Prim("short")`, `uint32_t` is
`Prim("int")`, `uint64_t` is `Prim("long")` — identical to `int16_t`,
`int32_t`, `int64_t`, so the handshake's type negotiation cannot
distinguish signedness. -/
theorem c10_unsigned_prim_descriptors :
    ioType .uint16T = ioType .int16T ∧ ioType .uint32T = ioType .int32T ∧
    ioType .uint64T = ioType .int64T ∧
    ioType .uint16T = Desc.prim "short" ∧ ioType .uint32T = Desc.prim "int" ∧
    ioType .uint64T = Desc.prim "long" :=
  ⟨rfl, rfl, rfl, rfl, rfl, rfl⟩

end HobbesNet
